import Mathlib

/-!
Verification of the multiprocessing orchestration layer of the `creamas`
multi-agent system (`creamas/mp.py`, `creamas/core/agent.py`).

Candidates, artifacts and worker addresses are modelled as natural numbers;
candidate identity (the source compares candidates by equality / by their
`str` representation, which the spec requires to be a stable identity) is
therefore plain equality on `ℕ`.  Scores are modelled as rationals.

Stateful methods of `MultiEnvironment` become explicit state passing on
`MEnvState`; fallible code (Python `IndexError`, `KeyError`,
`ZeroDivisionError`, `NameError`) returns `Option`.
-/

namespace Creamas

/-! ## Generic list helpers mirroring Python behaviour -/

/-- Structural worker for `firstOccs`; the fuel only serves termination and
`l.length` always suffices, since filtering never lengthens the tail. -/
def firstOccsGo : ℕ → List ℕ → List ℕ
  | 0, _ => []
  | _ + 1, [] => []
  | fuel + 1, x :: xs => x :: firstOccsGo fuel (xs.filter (fun y => y ≠ x))

/-- Keys of a Python iterable in first-occurrence order (the insertion order
of a `dict` / `Counter` built from it). -/
def firstOccs (l : List ℕ) : List ℕ :=
  firstOccsGo l.length l

/-- Python `list.remove(x)`: drop the first occurrence of `x` (no-op when
absent; the source only calls it on present elements). -/
def removeFirst (x : ℕ) : List ℕ → List ℕ
  | [] => []
  | y :: ys => if y = x then ys else y :: removeFirst x ys

/-- One pass of CPython's `for r in v: if cond r: v.remove(r)` loop, which
mutates the list while iterating: the list iterator keeps a bare index, so
removing the element just yielded shifts the sequel left and the iterator
skips the element that followed it.  `fuel` bounds the number of loop steps
(`v.length` suffices, as the index grows by one per step and the list never
grows). -/
def pyRemoveIfGo (cond : ℕ → Bool) : ℕ → List ℕ → ℕ → List ℕ
  | 0, v, _ => v
  | fuel + 1, v, i =>
    if h : i < v.length then
      let r := v.get ⟨i, h⟩
      if cond r then pyRemoveIfGo cond fuel (removeFirst r v) (i + 1)
      else pyRemoveIfGo cond fuel v (i + 1)
    else v

/-- Python's buggy in-place `for r in v: if cond r: v.remove(r)`. -/
def pyRemoveIf (cond : ℕ → Bool) (v : List ℕ) : List ℕ :=
  pyRemoveIfGo cond v.length v 0

/-- Insert a pair into a list sorted descending by second component, after
every entry of greater-or-equal score: the insertion point of a stable
descending sort. -/
def insDesc {β : Type} [LinearOrder β] (p : ℕ × β) :
    List (ℕ × β) → List (ℕ × β)
  | [] => [p]
  | q :: qs => if p.2 ≤ q.2 then q :: insDesc p qs else p :: q :: qs

/-- Python `list.sort(key=itemgetter(1), reverse=True)`: a stable sort,
descending in the second component; entries of equal score keep their
original relative order. -/
def isortDesc {β : Type} [LinearOrder β] (l : List (ℕ × β)) : List (ℕ × β) :=
  l.foldl (fun acc p => insDesc p acc) []

/-! ## The orchestrator state (`MultiEnvironment`) -/

/-- The mutable state of a `MultiEnvironment` that the claims touch: the
global candidate registry `_candidates`, the global artifact registry
`_artifacts` (each artifact paired with the `env_time` stamped onto it by
`add_artifact`), and the environment age. -/
structure MEnvState where
  candidates : List ℕ
  artifacts : List (ℕ × ℕ)
  age : ℕ
deriving DecidableEq

/-- `MultiEnvironment.add_artifact`: stamp `artifact.env_time = self.age`
and append to the artifact registry. -/
def add_artifact (s : MEnvState) (a : ℕ) : MEnvState :=
  { s with artifacts := s.artifacts ++ [(a, s.age)] }

/-- `MultiEnvironment.add_artifacts`: `add_artifact` for each element. -/
def add_artifacts (s : MEnvState) (l : List ℕ) : MEnvState :=
  l.foldl add_artifact s

/-- `MultiEnvironment.add_candidate`: append to the candidate registry. -/
def add_candidate (s : MEnvState) (c : ℕ) : MEnvState :=
  { s with candidates := s.candidates ++ [c] }

/-- `MultiEnvironment.clear_candidates`: reset the global candidate registry
to the empty list (the fan-out that also clears every slave's local copy
does not touch the global registry). -/
def clear_candidates (s : MEnvState) : MEnvState :=
  { s with candidates := [] }

/-- The data flow written inside the body of
`MultiEnvironment.validate_candidates`: start from `set(self.candidates)`,
intersect with `set(result)` for every per-worker validation result in
worker order, store the outcome back into `self._candidates`.  Python's
`set` (whose iteration order is unspecified; only membership matters here)
is modelled as a duplicate-free list; intersection with `set(result)` is a
membership filter.  This body is never executed by a plain call — see
`validate_candidates`. -/
def validate_candidates_body (s : MEnvState) (results : List (List ℕ)) :
    MEnvState :=
  { s with candidates :=
      (results.foldl (fun acc r => acc.filter (fun c => c ∈ r))
        s.candidates.dedup) }

/-- `MultiEnvironment.validate_candidates` as the program actually behaves:
the body contains a bare `yield from`, which makes the method a generator
function, so a plain call — the way the repository invokes it, as in
`SpiroMultiEnvironment.vote_and_save_info` — only creates a generator
object, executes none of the body (`validate_candidates_body`), and leaves
the state unchanged whatever the workers would have answered. -/
def validate_candidates (s : MEnvState) (_results : List (List ℕ)) :
    MEnvState :=
  s

/-! ## The voting engine -/

/-- First element of every ballot (`e[0] for e in x`); `none` when some
ballot is empty (Python `IndexError`). -/
def heads : List (List ℕ) → Option (List ℕ)
  | [] => some []
  | [] :: _ => none
  | (x :: _) :: vs => (heads vs).map (fun t => x :: t)

/-- `Counter(xs).most_common()`: pairs `(key, multiplicity)` for the keys of
`xs` in first-occurrence order, stably sorted by decreasing multiplicity. -/
def mostCommon (xs : List ℕ) : List (ℕ × ℕ) :=
  isortDesc ((firstOccs xs).map (fun k => (k, xs.count k)))

/-- `MultiEnvironment._remove_zeros`: in-place removal (with the iterator
skip, `pyRemoveIf`) of every ballot entry absent from `fpl`, then append
`(c, 0)` for every `c` in `cl` absent from `fpl`.  The source's guard
`c not in ranking` compares a candidate with `(candidate, rank)` tuples and
is therefore always true; it is modelled as such. -/
def remove_zeros (ballots : List (List ℕ)) (fpl : List ℕ) (cl : List ℕ)
    (ranking : List (ℕ × ℚ)) : List (List ℕ) × List (ℕ × ℚ) :=
  (ballots.map (pyRemoveIf (fun r => !(fpl.contains r))),
   cl.foldl (fun rk c => if c ∈ fpl then rk else rk ++ [(c, 0)]) ranking)

/-- `MultiEnvironment._remove_last`: in-place removal of `fpl[-1]` (passed
here as `last`) from every ballot, then append `(c, len(ranking) + 1)` for
every occurrence of `last` in `cl` (again, `c not in ranking` is always
true). -/
def remove_last (ballots : List (List ℕ)) (last : ℕ) (cl : List ℕ)
    (ranking : List (ℕ × ℚ)) : List (List ℕ) × List (ℕ × ℚ) :=
  (ballots.map (pyRemoveIf (fun r => r = last)),
   cl.foldl
     (fun rk c =>
       if c = last then rk ++ [(c, ((rk.length + 1 : ℕ) : ℚ))] else rk)
     ranking)

/-- The `while len(fpl) > 1` loop of `MultiEnvironment._vote_IRV` plus its
final `ranking.append((fpl[0], len(ranking) + 1))` and reversal.  `none`
models a raised `IndexError` (`fpl[0]` on an empty `fpl`, or a first-element
read of an emptied ballot); `fuel` bounds the iteration count (each
iteration removes at least one ballot entry, so the total ballot size
suffices). -/
def IRVloop : ℕ → List (List ℕ) → List ℕ → List (ℕ × ℚ) → List ℕ →
    Option (List (ℕ × ℚ))
  | 0, _, _, _, _ => none
  | fuel + 1, ballots, cl, ranking, fpl =>
    if fpl.length > 1 then
      match fpl.getLast? with
      | none => none
      | some last =>
        let z := remove_zeros ballots fpl cl ranking
        let l := remove_last z.1 last cl z.2
        match heads l.1 with
        | none => none
        | some firsts =>
          IRVloop fuel l.1 fpl.dropLast l.2 ((mostCommon firsts).map Prod.fst)
    else
      match fpl with
      | [] => none
      | f :: _ =>
        some ((ranking ++ [(f, ((ranking.length + 1 : ℕ) : ℚ))]).reverse)

/-- `MultiEnvironment._vote_IRV`: strip scores from the votes, compute the
first-preference list, run the elimination loop.  Ranks are returned as
scores (`ℚ`) so that every voting method has one result type. -/
def vote_IRV (cands : List ℕ) (votes : List (List (ℕ × ℚ))) :
    Option (List (ℕ × ℚ)) :=
  let ballots := votes.map (fun v => v.map Prod.fst)
  match heads ballots with
  | none => none
  | some firsts =>
    IRVloop ((ballots.map List.length).sum + 1) ballots cands []
      ((mostCommon firsts).map Prod.fst)

/-- The dict comprehension `{str(candidate): [] for candidate in
self.candidates}`: keys in first-occurrence order (`str` is required by the
spec to be an injective candidate identity, so the key is the candidate
itself). -/
def dictInit (cands : List ℕ) : List (ℕ × List ℚ) :=
  (firstOccs cands).map (fun c => (c, []))

/-- `sums[str(v[0])].append(v[1])`: append to the value of an existing key,
`none` (Python `KeyError`) when the key is absent. -/
def alistApp (k : ℕ) (x : ℚ) :
    List (ℕ × List ℚ) → Option (List (ℕ × List ℚ))
  | [] => none
  | (k', l) :: rest =>
    if k' = k then some ((k', l ++ [x]) :: rest)
    else (alistApp k x rest).map (fun d => (k', l) :: d)

/-- The nested `for vote in votes: for v in vote:` accumulation loop of
`MultiEnvironment._vote_mean`. -/
def addVotes (votes : List (List (ℕ × ℚ))) (d0 : List (ℕ × List ℚ)) :
    Option (List (ℕ × List ℚ)) :=
  votes.foldlM
    (fun d vote => vote.foldlM (fun d' v => alistApp v.1 v.2 d') d) d0

/-- The `for s in sums: sums[s] = sum(sums[s]) / len(sums[s])` loop: `none`
models the `ZeroDivisionError` raised on a candidate with no recorded
scores. -/
def toMeans : List (ℕ × List ℚ) → Option (List (ℕ × ℚ))
  | [] => some []
  | (k, l) :: rest =>
    if l.isEmpty then none
    else (toMeans rest).map (fun ms => (k, l.sum / (l.length : ℚ)) :: ms)

/-- `MultiEnvironment._vote_mean`: accumulate per-candidate score lists keyed
by candidate identity, average them, sort stably by decreasing mean, take
the top `accepted`, and rebuild `(candidate, mean)` pairs by scanning the
candidate registry for each chosen key. -/
def vote_mean (cands : List ℕ) (votes : List (List (ℕ × ℚ)))
    (accepted : ℕ) : Option (List (ℕ × ℚ)) :=
  match addVotes votes (dictInit cands) with
  | none => none
  | some d =>
    match toMeans d with
    | none => none
    | some means =>
      let ordering := isortDesc means
      let best := ordering.take (min accepted ordering.length)
      some (best.foldl
        (fun acc e =>
          acc ++ (cands.filter (fun c => c = e.1)).map (fun c => (c, e.2)))
        [])

/-- The `method == 'best'` branch of `MultiEnvironment.perform_voting`:
start from `votes[0][0]` and replace it by `v[0]` whenever `v[0][1]` is
strictly greater; `none` models the `IndexError` on an empty vote set or an
empty vote list. -/
def voteBest (votes : List (List (ℕ × ℚ))) : Option (ℕ × ℚ) :=
  match votes with
  | [] => none
  | v0 :: rest =>
    match v0 with
    | [] => none
    | p0 :: _ =>
      rest.foldlM
        (fun b v =>
          match v with
          | [] => none
          | q :: _ => some (if q.2 > b.2 then q else b)) p0

/-- The `method == 'least_worst'` branch: as `voteBest` but on each vote
list's last entry `v[-1]`. -/
def voteLeastWorst (votes : List (List (ℕ × ℚ))) : Option (ℕ × ℚ) :=
  match votes with
  | [] => none
  | v0 :: rest =>
    match v0.getLast? with
    | none => none
    | some p0 =>
      rest.foldlM
        (fun b v =>
          match v.getLast? with
          | none => none
          | some q => some (if q.2 > b.2 then q else b)) p0

/-- `MultiEnvironment.perform_voting`.  `votes` stands for the vote set the
source gathers through `_gather_votes` after the emptiness check; the
returned boolean records whether that gathering step was reached.  `shuffle`
models the `random.shuffle` permutation of the `random` branch.  An unknown
method leaves the source's `best` variable unbound (`NameError`), modelled
as `none`. -/
def perform_voting (cands : List ℕ) (votes : List (List (ℕ × ℚ)))
    (method : String) (accepted : ℕ) (shuffle : List ℕ → List ℕ) :
    Option (List (ℕ × ℚ)) × Bool :=
  if cands.length = 0 then (some [], false)
  else
    (match method with
     | "IRV" =>
       match vote_IRV cands votes with
       | none => none
       | some ordering => some (ordering.take (min accepted ordering.length))
     | "best" => (voteBest votes).map (fun p => [p])
     | "least_worst" => (voteLeastWorst votes).map (fun p => [p])
     | "random" =>
       let rcands := shuffle cands
       some ((rcands.take (min accepted rcands.length)).map (fun c => (c, 0)))
     | "mean" => vote_mean cands votes accepted
     | _ => none,
     true)

/-! ## Spawn placement, shutdown, agent evaluation -/

/-- `MultiEnvironment._get_smallest_env`: scan the manager addresses keeping
the first address whose environment reports a strictly smaller agent count;
`none` models the `IndexError` on an empty address list.  `count addr` is
the number of agents the worker at `addr` currently reports. -/
def get_smallest_env (addrs : List ℕ) (count : ℕ → ℕ) : Option ℕ :=
  match addrs with
  | [] => none
  | a0 :: rest =>
    some ((rest.foldl
      (fun st addr => if count addr < st.2 then (addr, count addr) else st)
      (a0, count a0)).1)

/-- `MultiEnvironment.spawn`: the address the spawn request is delegated to —
the explicit `addr` when given, otherwise the least-loaded worker. -/
def spawn (addrs : List ℕ) (count : ℕ → ℕ) (addr : Option ℕ) : Option ℕ :=
  match addr with
  | some a => some a
  | none => get_smallest_env addrs count

/-- The externally visible actions of `MultiEnvironment.destroy`. -/
inductive DEvent
  | saveInfo
  | stopWorker (addr : ℕ)
  | poolClose
  | poolTerminate
  | poolJoin
  | envShutdown
deriving DecidableEq

/-- `MultiEnvironment._destroy_slaves`: await `stop` on every worker in
address order, one at a time.  Each worker is a pair of its address and
whether its `stop` call succeeds; a raised error propagates immediately
(there is no handler), so later workers are not stopped. -/
def destroy_slaves : List (ℕ × Bool) → List DEvent × Bool
  | [] => ([], true)
  | (a, ok) :: ws =>
    if ok then
      let r := destroy_slaves ws
      (DEvent.stopWorker a :: r.1, r.2)
    else ([DEvent.stopWorker a], false)

/-- `MultiEnvironment.destroy`: `save_info`, then the sequential worker
stops, then — only when no stop raised, as the source has no try/finally —
`pool.close()`, `pool.terminate()`, `pool.join()` and the shutdown of the
orchestrator's own environment.  The boolean is true when the call returns
normally. -/
def destroy (workers : List (ℕ × Bool)) : List DEvent × Bool :=
  if (destroy_slaves workers).2 then
    (DEvent.saveInfo :: (destroy_slaves workers).1 ++
      [DEvent.poolClose, DEvent.poolTerminate, DEvent.poolJoin,
       DEvent.envShutdown], true)
  else (DEvent.saveInfo :: (destroy_slaves workers).1, false)

/-- Addresses of the `stopWorker` events of a shutdown trace, in order. -/
def stopsOf (evs : List DEvent) : List ℕ :=
  evs.filterMap
    (fun e => match e with | DEvent.stopWorker a => some a | _ => none)

/-- `CreativeAgent.evaluate`: weighted sum of the rule evaluations divided by
the sum of the absolute weights, with early `(0.0, None)` returns when the
rule list is empty or the weight sum is zero.  The framing of this basic
implementation is always `None` (`Option Unit` is always `none`); a rule
index beyond the weight list (`self.W[i]`, an `IndexError`) is the outer
`none`. -/
def evaluate (R : List (ℕ → ℚ)) (W : List ℚ) (artifact : ℕ) :
    Option (ℚ × Option Unit) :=
  if R.length = 0 then some (0, none)
  else if R.length ≤ W.length then
    let pairs := R.zip W
    let s := (pairs.map (fun p => p.1 artifact * p.2)).sum
    let w := (pairs.map (fun p => |p.2|)).sum
    if w = 0 then some (0, none) else some (s / w, none)
  else none

/-! ## Operations as a step relation, for the registry invariant -/

/-- The `MultiEnvironment` operations that touch (or are claimed to touch)
the global registries. -/
inductive MOp
  | addArtifactOp (a : ℕ)
  | addArtifactsOp (l : List ℕ)
  | addCandidateOp (c : ℕ)
  | clearCandidatesOp
  | validateCandidatesOp (results : List (List ℕ))
  | performVotingOp (method : String) (accepted : ℕ)
      (votes : List (List (ℕ × ℚ)))

/-- Effect of one operation on the orchestrator state.  `perform_voting`
only reads `self.candidates` and returns its ranking; it assigns no
attribute, so it leaves the state unchanged. -/
def step (s : MEnvState) : MOp → MEnvState
  | .addArtifactOp a => add_artifact s a
  | .addArtifactsOp l => add_artifacts s l
  | .addCandidateOp c => add_candidate s c
  | .clearCandidatesOp => clear_candidates s
  | .validateCandidatesOp results => validate_candidates s results
  | .performVotingOp _ _ _ => s

/-! ## Spec-side definitions (for refinement statements) -/

/-- Scores submitted for candidate `c` across the whole vote set, in
submission order. -/
def scoresFor (c : ℕ) (votes : List (List (ℕ × ℚ))) : List ℚ :=
  ((votes.flatten).filter (fun p => p.1 = c)).map Prod.snd

/-- Modelled from the spec: mean voting — "per candidate, arithmetic mean of
all scores received across every agent that scored it …; sort descending by
mean; take top `acceptedCount`; ties keep first-seen order". -/
def vote_mean_spec (cands : List ℕ) (votes : List (List (ℕ × ℚ)))
    (accepted : ℕ) : List (ℕ × ℚ) :=
  (isortDesc (cands.map
    (fun c => (c, (scoresFor c votes).sum / ((scoresFor c votes).length : ℚ))))).take
    accepted


/-! ## Helper lemmas -/

theorem firstOccsGo_of_nodup :
    ∀ (fuel : ℕ) (l : List ℕ), l.Nodup → l.length ≤ fuel →
      firstOccsGo fuel l = l := by
  intro fuel
  induction fuel with
  | zero =>
    intro l _ hlen
    rw [Nat.le_zero, List.length_eq_zero] at hlen
    rw [hlen]
    rfl
  | succ n ih =>
    intro l hnd hlen
    cases l with
    | nil => rfl
    | cons x xs =>
      rw [List.nodup_cons] at hnd
      have hf : xs.filter (fun y => y ≠ x) = xs := by
        apply List.filter_eq_self.mpr
        intro a ha
        simp only [ne_eq, decide_eq_true_eq]
        exact fun hax => hnd.1 (hax ▸ ha)
      rw [List.length_cons, Nat.succ_le_succ_iff] at hlen
      rw [firstOccsGo, hf, ih xs hnd.2 hlen]

theorem firstOccs_of_nodup {l : List ℕ} (h : l.Nodup) : firstOccs l = l :=
  firstOccsGo_of_nodup l.length l h le_rfl

theorem add_artifacts_extend (l : List ℕ) (s : Creamas.MEnvState) :
    ∃ t, (Creamas.add_artifacts s l).artifacts = s.artifacts ++ t := by
  induction l generalizing s with
  | nil => exact ⟨[], by simp [Creamas.add_artifacts]⟩
  | cons a as ih =>
    obtain ⟨t, ht⟩ := ih (Creamas.add_artifact s a)
    refine ⟨(a, s.age) :: t, ?_⟩
    show (Creamas.add_artifacts (Creamas.add_artifact s a) as).artifacts = _
    rw [ht]
    simp [Creamas.add_artifact]

theorem step_artifacts_extend (s : Creamas.MEnvState) (op : Creamas.MOp) :
    ∃ t, (Creamas.step s op).artifacts = s.artifacts ++ t := by
  cases op with
  | addArtifactOp a => exact ⟨[(a, s.age)], rfl⟩
  | addArtifactsOp l => exact add_artifacts_extend l s
  | addCandidateOp c => exact ⟨[], by simp [Creamas.step, Creamas.add_candidate]⟩
  | clearCandidatesOp => exact ⟨[], by simp [Creamas.step, Creamas.clear_candidates]⟩
  | validateCandidatesOp r =>
    exact ⟨[], by simp [Creamas.step, Creamas.validate_candidates]⟩
  | performVotingOp m acc v => exact ⟨[], by simp [Creamas.step]⟩

/-! ## Claim theorems -/

/-- C1 (code bug): `MultiEnvironment.validate_candidates` is a generator
function (its body holds a bare `yield from`), so a plain call — the way
the repository itself invokes it — executes nothing and leaves the global
candidate set unchanged for every state and every family of worker results.
Concretely, with round-start candidates [1, 2] and one worker returning
only [1] (candidate 2 vetoed), the vetoed candidate 2 is still present
after the call, although the claimed intersection — which is exactly what
the never-executed body (`validate_candidates_body`) would compute — no
longer contains it. -/
theorem validate_candidates_call_is_noop :
    (∀ (s : Creamas.MEnvState) (results : List (List ℕ)),
      Creamas.validate_candidates s results = s) ∧
    Creamas.validate_candidates ⟨[1, 2], [], 0⟩ [[1]] = ⟨[1, 2], [], 0⟩ ∧
    2 ∈ (Creamas.validate_candidates ⟨[1, 2], [], 0⟩ [[1]]).candidates ∧
    2 ∉ (Creamas.validate_candidates_body ⟨[1, 2], [], 0⟩ [[1]]).candidates := by
  exact ⟨fun s results => rfl, rfl, by decide, by decide⟩

/-- C7: with an empty global candidate set, `perform_voting` returns the
empty list for every method and every accepted count, raising no error, and
never reaches the vote-gathering step (the boolean part of the result). -/
theorem perform_voting_empty_candidates (votes : List (List (ℕ × ℚ)))
    (method : String) (accepted : ℕ) (shuffle : List ℕ → List ℕ) :
    Creamas.perform_voting [] votes method accepted shuffle =
      (some [], false) := rfl

/-- C8: `MultiEnvironment.clear_candidates` is idempotent at the global
registry: one call empties the global candidate set and a second consecutive
call leaves it empty again, completing without error. -/
theorem clear_candidates_idempotent (s : Creamas.MEnvState) :
    (Creamas.clear_candidates s).candidates = [] ∧
    (Creamas.clear_candidates (Creamas.clear_candidates s)).candidates = [] ∧
    Creamas.clear_candidates (Creamas.clear_candidates s) =
      Creamas.clear_candidates s :=
  ⟨rfl, rfl, rfl⟩

/-- C9: the artifact registry never shrinks — every sequence of
`MultiEnvironment` operations (adds, clears, validation, voting) extends
the artifact list by appending only, so the artifacts at any later point
are a superset of the artifacts at any earlier point. -/
theorem artifact_registry_append_only (s : Creamas.MEnvState)
    (ops : List Creamas.MOp) :
    (∃ t, (ops.foldl Creamas.step s).artifacts = s.artifacts ++ t) ∧
    ∀ a ∈ s.artifacts, a ∈ (ops.foldl Creamas.step s).artifacts := by
  have key : ∀ (ops : List Creamas.MOp) (s : Creamas.MEnvState),
      ∃ t, (ops.foldl Creamas.step s).artifacts = s.artifacts ++ t := by
    intro ops
    induction ops with
    | nil => exact fun s => ⟨[], by simp⟩
    | cons op rest ih =>
      intro s
      obtain ⟨t1, h1⟩ := step_artifacts_extend s op
      obtain ⟨t2, h2⟩ := ih (Creamas.step s op)
      refine ⟨t1 ++ t2, ?_⟩
      rw [List.foldl_cons, h2, h1, List.append_assoc]
  obtain ⟨t, ht⟩ := key ops s
  exact ⟨⟨t, ht⟩, fun a ha => ht ▸ List.mem_append_left _ ha⟩


theorem destroy_slaves_all_ok (ws : List (ℕ × Bool))
    (h : ∀ w ∈ ws, w.2 = true) :
    destroy_slaves ws = (ws.map (fun w => DEvent.stopWorker w.1), true) := by
  induction ws with
  | nil => rfl
  | cons w rest ih =>
    obtain ⟨a, ok⟩ := w
    have hok : ok = true := h (a, ok) (List.mem_cons_self _ _)
    subst hok
    simp [destroy_slaves, ih (fun x hx => h x (List.mem_cons_of_mem _ hx))]

theorem destroy_slaves_ok_iff (ws : List (ℕ × Bool)) :
    (destroy_slaves ws).2 = true ↔ ∀ w ∈ ws, w.2 = true := by
  induction ws with
  | nil => simp [destroy_slaves]
  | cons w rest ih =>
    obtain ⟨a, ok⟩ := w
    cases ok <;> simp [destroy_slaves, ih]

theorem destroy_slaves_only_stops (ws : List (ℕ × Bool)) :
    ∀ e ∈ (destroy_slaves ws).1, ∃ a, e = DEvent.stopWorker a := by
  induction ws with
  | nil => simp [destroy_slaves]
  | cons w rest ih =>
    obtain ⟨a, ok⟩ := w
    intro e he
    cases ok with
    | false =>
      have he2 : e ∈ [DEvent.stopWorker a] := he
      exact ⟨a, List.mem_singleton.mp he2⟩
    | true =>
      have he2 : e ∈ DEvent.stopWorker a :: (destroy_slaves rest).1 := he
      rcases List.mem_cons.mp he2 with hc | hc
      · exact ⟨a, hc⟩
      · exact ih e hc

theorem destroy_slaves_stops_order (ws : List (ℕ × Bool)) :
    ∃ t, ws.map Prod.fst = stopsOf (destroy_slaves ws).1 ++ t := by
  induction ws with
  | nil => exact ⟨[], rfl⟩
  | cons w rest ih =>
    obtain ⟨a, ok⟩ := w
    cases ok with
    | false =>
      refine ⟨rest.map Prod.fst, ?_⟩
      simp [destroy_slaves, stopsOf]
    | true =>
      obtain ⟨t, ht⟩ := ih
      refine ⟨t, ?_⟩
      simpa [destroy_slaves, stopsOf] using ht

/-- C4 (amended): `MultiEnvironment.destroy` first calls `save_info`, then
stops the workers strictly sequentially in worker-address order; when every
stop succeeds it then closes, terminates and joins the process pool and
shuts down its own environment — but when a worker `stop` raises, the error
propagates immediately: later workers are not stopped and the pool close /
terminate / join lines are never reached. -/
theorem destroy_sequential_then_pool (ws : List (ℕ × Bool)) :
    (destroy ws).1.head? = some DEvent.saveInfo ∧
    (∃ t, ws.map Prod.fst = stopsOf (destroy ws).1 ++ t) ∧
    ((∀ w ∈ ws, w.2 = true) →
      destroy ws =
        (DEvent.saveInfo :: ws.map (fun w => DEvent.stopWorker w.1) ++
          [DEvent.poolClose, DEvent.poolTerminate, DEvent.poolJoin,
           DEvent.envShutdown], true)) ∧
    (DEvent.poolTerminate ∈ (destroy ws).1 ↔ ∀ w ∈ ws, w.2 = true) := by
  refine ⟨?_, ?_, ?_, ?_⟩
  · unfold destroy
    cases h : (destroy_slaves ws).2 <;> simp [h]
  · obtain ⟨t, ht⟩ := destroy_slaves_stops_order ws
    refine ⟨t, ?_⟩
    unfold destroy
    cases h : (destroy_slaves ws).2 <;>
      simpa [h, stopsOf, List.filterMap_append] using ht
  · intro h
    unfold destroy
    rw [destroy_slaves_all_ok ws h]
    rfl
  · constructor
    · intro hmem
      by_contra hnot
      rw [← destroy_slaves_ok_iff] at hnot
      have h2 : (destroy_slaves ws).2 = false := by
        cases hb : (destroy_slaves ws).2
        · rfl
        · exact absurd hb hnot
      unfold destroy at hmem
      rw [h2] at hmem
      have hmem2 : DEvent.poolTerminate ∈
          DEvent.saveInfo :: (destroy_slaves ws).1 := hmem
      rcases List.mem_cons.mp hmem2 with hc | hc
      · exact DEvent.noConfusion hc
      · obtain ⟨a, ha⟩ := destroy_slaves_only_stops ws _ hc
        exact DEvent.noConfusion ha
    · intro hall
      unfold destroy
      rw [destroy_slaves_all_ok ws hall]
      have hin : DEvent.poolTerminate ∈ DEvent.saveInfo ::
          (ws.map (fun w => DEvent.stopWorker w.1) ++
           [DEvent.poolClose, DEvent.poolTerminate, DEvent.poolJoin,
            DEvent.envShutdown]) := by simp
      exact hin

/-- C4 (counterexample): when the first worker's `stop` raises, `destroy`
stops — the pool is never terminated, contradicting the claim that a
failure while stopping a worker never prevents pool termination. -/
theorem destroy_stop_failure_skips_pool :
    destroy [(0, false), (1, true)] =
      ([DEvent.saveInfo, DEvent.stopWorker 0], false) ∧
    DEvent.poolTerminate ∉ (destroy [(0, false), (1, true)]).1 := by
  exact ⟨rfl, by decide⟩

/-- Witness for C4's amended theorem at a concrete two-worker input whose
stops both succeed. -/
theorem destroy_sequential_then_pool_witness :
    destroy [(3, true), (7, true)] =
      (DEvent.saveInfo ::
        [(3, true), (7, true)].map (fun w => DEvent.stopWorker w.1) ++
        [DEvent.poolClose, DEvent.poolTerminate, DEvent.poolJoin,
         DEvent.envShutdown], true) :=
  (destroy_sequential_then_pool [(3, true), (7, true)]).2.2.1 (by decide)

/-- C2 (code bug): on the strict complete single-ballot vote set ranking
candidate 1 over candidate 2, `_vote_IRV` returns only candidate 1 —
candidate 2, which received no first-preference vote, is silently dropped
because the elimination loop is never entered — and `perform_voting('IRV', 2)`
therefore returns a single pair instead of a permutation of both
candidates. -/
theorem vote_IRV_drops_unanimous_loser :
    vote_IRV [1, 2] [[(1, 1), (2, 0)]] = some [(1, 1)] ∧
    perform_voting [1, 2] [[(1, 1), (2, 0)]] "IRV" 2 (fun l => l) =
      (some [(1, 1)], true) := by
  exact ⟨by decide, by decide⟩

/-- C3 (counterexample): a candidate (here `2`) present in the registry but
scored by no agent makes `_vote_mean` raise `ZeroDivisionError`
(`sum([]) / len([])`) instead of being excluded from the ranking. -/
theorem vote_mean_unscored_candidate_fails :
    vote_mean [1, 2] [[(1, 3)]] 1 = none := by decide

/-- C10: `CreativeAgent.evaluate` guards its division — with an empty rule
list, or a zero sum of absolute weights, it returns `(0.0, None)` without
dividing, so the division in the weighted-sum formula is never a division
by zero. -/
theorem evaluate_zero_weight_guard (R : List (ℕ → ℚ)) (W : List ℚ)
    (artifact : ℕ) (hlen : R.length ≤ W.length)
    (h : R = [] ∨ ((R.zip W).map (fun p => |p.2|)).sum = 0) :
    evaluate R W artifact = some (0, none) := by
  rcases h with h | h
  · subst h
    rfl
  · by_cases hR : R.length = 0
    · simp [evaluate, hR]
    · simp [evaluate, hR, hlen, h]

/-- Witness for C10 at a one-rule agent whose single weight is zero. -/
theorem evaluate_zero_weight_guard_witness :
    evaluate [fun _ => 3] [0] 5 = some (0, none) :=
  evaluate_zero_weight_guard [fun _ => 3] [0] 5 (by decide)
    (Or.inr (by simp))


theorem get_smallest_env_split (count : ℕ → ℕ) :
    ∀ (rest : List ℕ) (a : ℕ),
      ∃ r pre post,
        get_smallest_env (a :: rest) count = some r ∧
        a :: rest = pre ++ r :: post ∧
        (∀ b ∈ pre, count r < count b) ∧
        (∀ b ∈ post, count r ≤ count b) := by
  intro rest
  induction rest with
  | nil =>
    intro a
    exact ⟨a, [], [], rfl, rfl, by simp, by simp⟩
  | cons x xs ih =>
    intro a
    by_cases hlt : count x < count a
    · obtain ⟨r, pre, post, heq, hsplit, hpre, hpost⟩ := ih x
      have heq2 : get_smallest_env (a :: x :: xs) count = some r := by
        simp only [get_smallest_env] at heq ⊢
        rw [List.foldl_cons]
        simpa [hlt] using heq
      have hrx : count r ≤ count x := by
        cases pre with
        | nil =>
          rw [List.nil_append] at hsplit
          injection hsplit with h1 h2
          rw [h1]
        | cons p0 pre2 =>
          rw [List.cons_append] at hsplit
          injection hsplit with h1 h2
          exact le_of_lt (h1 ▸ hpre p0 (List.mem_cons_self _ _))
      refine ⟨r, a :: pre, post, heq2, ?_, ?_, hpost⟩
      · rw [List.cons_append, ← hsplit]
      · intro b hb
        rcases List.mem_cons.mp hb with hb | hb
        · exact hb ▸ lt_of_le_of_lt hrx hlt
        · exact hpre b hb
    · obtain ⟨r, pre, post, heq, hsplit, hpre, hpost⟩ := ih a
      have hax : count a ≤ count x := le_of_not_lt hlt
      have heq2 : get_smallest_env (a :: x :: xs) count = some r := by
        simp only [get_smallest_env] at heq ⊢
        rw [List.foldl_cons]
        simpa [hlt] using heq
      cases pre with
      | nil =>
        rw [List.nil_append] at hsplit
        injection hsplit with h1 h2
        refine ⟨r, [], x :: xs, heq2, by simp [h1], by simp, ?_⟩
        intro b hb
        rcases List.mem_cons.mp hb with hb | hb
        · rw [hb, ← h1]
          exact hax
        · exact hpost b (h2 ▸ hb)
      | cons p0 pre2 =>
        rw [List.cons_append] at hsplit
        injection hsplit with h1 h2
        have hra : count r < count a := h1 ▸ hpre p0 (List.mem_cons_self _ _)
        refine ⟨r, a :: x :: pre2, post, heq2, ?_, ?_, hpost⟩
        · rw [List.cons_append, List.cons_append, ← h2]
        · intro b hb
          rcases List.mem_cons.mp hb with hb | hb
          · exact hb ▸ hra
          · rcases List.mem_cons.mp hb with hb2 | hb2
            · exact hb2 ▸ lt_of_lt_of_le hra hax
            · exact hpre b (h1 ▸ List.mem_cons_of_mem _ hb2)

/-- C6: for a non-empty worker list, `MultiEnvironment.spawn` without an
explicit address delegates to `_get_smallest_env`, which selects the worker
with the fewest current agents, ties broken in favour of the earliest
worker in address-iteration order (`pre` lists the workers before the
chosen one; all are strictly more loaded). -/
theorem spawn_picks_least_loaded (addrs : List ℕ) (count : ℕ → ℕ)
    (h : addrs ≠ []) :
    ∃ r pre post,
      spawn addrs count none = some r ∧
      spawn addrs count none = get_smallest_env addrs count ∧
      addrs = pre ++ r :: post ∧
      (∀ b ∈ addrs, count r ≤ count b) ∧
      (∀ b ∈ pre, count r < count b) := by
  cases addrs with
  | nil => exact absurd rfl h
  | cons a rest =>
    obtain ⟨r, pre, post, heq, hsplit, hpre, hpost⟩ :=
      get_smallest_env_split count rest a
    refine ⟨r, pre, post, heq, rfl, hsplit, ?_, hpre⟩
    intro b hb
    rw [hsplit] at hb
    rcases List.mem_append.mp hb with hb | hb
    · exact le_of_lt (hpre b hb)
    · rcases List.mem_cons.mp hb with hb | hb
      · exact hb ▸ le_refl _
      · exact hpost b hb

/-- Witness for C6 on three workers where the middle one is the least
loaded. -/
theorem spawn_picks_least_loaded_witness :
    ∃ r pre post,
      spawn [10, 20, 30] (fun a => if a = 20 then 0 else 1) none = some r ∧
      spawn [10, 20, 30] (fun a => if a = 20 then 0 else 1) none =
        get_smallest_env [10, 20, 30] (fun a => if a = 20 then 0 else 1) ∧
      [10, 20, 30] = pre ++ r :: post ∧
      (∀ b ∈ [10, 20, 30],
        (if r = 20 then 0 else 1) ≤ (if b = 20 then 0 else 1)) ∧
      (∀ b ∈ pre, (if r = 20 then 0 else 1) < (if b = 20 then 0 else 1)) :=
  spawn_picks_least_loaded [10, 20, 30]
    (fun a => if a = 20 then 0 else 1) (by decide)


theorem voteBest_fold (rest : List (List (ℕ × ℚ))) :
    ∀ (b0 : ℕ × ℚ), (∀ v ∈ rest, v ≠ []) →
      ∃ p, (rest.foldlM
          (fun b v =>
            match v with
            | [] => none
            | q :: _ => some (if q.2 > b.2 then q else b)) b0 :
            Option (ℕ × ℚ)) = some p ∧
        (p = b0 ∨ ∃ v ∈ rest, v.head? = some p) ∧
        b0.2 ≤ p.2 ∧
        ∀ v ∈ rest, ∀ q, v.head? = some q → q.2 ≤ p.2 := by
  induction rest with
  | nil =>
    intro b0 _
    exact ⟨b0, rfl, Or.inl rfl, le_refl _, by simp⟩
  | cons v vs ih =>
    intro b0 hne
    obtain ⟨q, vt, hv⟩ : ∃ q vt, v = q :: vt := by
      cases v with
      | nil => exact absurd rfl (hne [] (List.mem_cons_self _ _))
      | cons q vt => exact ⟨q, vt, rfl⟩
    subst hv
    obtain ⟨p, hfold, hsrc, hge, hbound⟩ :=
      ih (if q.2 > b0.2 then q else b0)
        (fun w hw => hne w (List.mem_cons_of_mem _ hw))
    have hb1 : b0.2 ≤ (if q.2 > b0.2 then q else b0).2 := by
      by_cases hq : q.2 > b0.2
      · rw [if_pos hq]
        exact le_of_lt hq
      · rw [if_neg hq]
    have hq1 : q.2 ≤ (if q.2 > b0.2 then q else b0).2 := by
      by_cases hq : q.2 > b0.2
      · rw [if_pos hq]
      · rw [if_neg hq]
        exact le_of_not_lt hq
    refine ⟨p, ?_, ?_, le_trans hb1 hge, ?_⟩
    · rw [List.foldlM_cons]
      exact hfold
    · rcases hsrc with hsrc | ⟨w, hw, hhead⟩
      · by_cases hq : q.2 > b0.2
        · rw [if_pos hq] at hsrc
          exact Or.inr ⟨q :: vt, List.mem_cons_self _ _, by rw [hsrc]; rfl⟩
        · rw [if_neg hq] at hsrc
          exact Or.inl hsrc
      · exact Or.inr ⟨w, List.mem_cons_of_mem _ hw, hhead⟩
    · intro w hw x hx
      rcases List.mem_cons.mp hw with hw | hw
      · have : x = q := by
          rw [hw] at hx
          exact (Option.some.injEq _ _).mp hx.symm
        rw [this]
        exact le_trans hq1 hge
      · exact hbound w hw x hx

/-- C5: with every agent's vote list an ordered ranking best-to-worst (each
list sorted non-increasing by score as the spec prescribes for vote lists)
and a non-empty candidate set and vote set, `perform_voting('best', k)`
returns exactly one `(candidate, score)` pair for every accepted count `k`,
and that pair carries the globally highest individual score in the whole
vote set. -/
theorem perform_voting_best_is_global_max (cands : List ℕ)
    (votes : List (List (ℕ × ℚ))) (accepted : ℕ) (shuffle : List ℕ → List ℕ)
    (hc : cands ≠ []) (hv : votes ≠ [])
    (hne : ∀ v ∈ votes, v ≠ [])
    (hsorted : ∀ v ∈ votes, v.Pairwise (fun p q => q.2 ≤ p.2)) :
    ∃ p, perform_voting cands votes "best" accepted shuffle =
        (some [p], true) ∧
      p ∈ votes.flatten ∧
      ∀ q ∈ votes.flatten, q.2 ≤ p.2 := by
  obtain ⟨v0, rest, hvs⟩ : ∃ v0 rest, votes = v0 :: rest := by
    cases votes with
    | nil => exact absurd rfl hv
    | cons v0 rest => exact ⟨v0, rest, rfl⟩
  obtain ⟨p0, t0, hv0⟩ : ∃ p0 t0, v0 = p0 :: t0 := by
    cases v0 with
    | nil => exact absurd rfl (hne [] (hvs ▸ List.mem_cons_self _ _))
    | cons p0 t0 => exact ⟨p0, t0, rfl⟩
  subst hvs
  subst hv0
  obtain ⟨p, hfold, hsrc, hge, hbound⟩ :=
    voteBest_fold rest p0 (fun w hw => hne w (List.mem_cons_of_mem _ hw))
  have hbest : voteBest ((p0 :: t0) :: rest) = some p := hfold
  have hclen : ¬ cands.length = 0 := by
    simpa [List.length_eq_zero] using hc
  have hheadBound : ∀ v ∈ (p0 :: t0) :: rest, ∀ x : ℕ × ℚ,
      v.head? = some x → x.2 ≤ p.2 := by
    intro v hvm x hx
    rcases List.mem_cons.mp hvm with hvm | hvm
    · have : x = p0 := by
        rw [hvm] at hx
        exact (Option.some.injEq _ _).mp hx.symm
      rw [this]
      exact hge
    · exact hbound v hvm x hx
  refine ⟨p, ?_, ?_, ?_⟩
  · unfold perform_voting
    rw [if_neg hclen]
    show ((voteBest ((p0 :: t0) :: rest)).map (fun p => [p]), true) = _
    rw [hbest]
    rfl
  · rcases hsrc with hsrc | ⟨w, hw, hhead⟩
    · apply List.mem_flatten.mpr
      exact ⟨p0 :: t0, List.mem_cons_self _ _, hsrc ▸ List.mem_cons_self _ _⟩
    · apply List.mem_flatten.mpr
      refine ⟨w, List.mem_cons_of_mem _ hw, ?_⟩
      cases w with
      | nil => exact absurd hhead (by simp)
      | cons wh wt =>
        have : wh = p := by
          simpa using hhead
        exact this ▸ List.mem_cons_self _ _
  · intro q hq
    obtain ⟨v, hvm, hqv⟩ := List.mem_flatten.mp hq
    obtain ⟨vh, vt2, hveq⟩ : ∃ vh vt2, v = vh :: vt2 := by
      cases v with
      | nil => exact absurd rfl (hne [] hvm)
      | cons vh vt2 => exact ⟨vh, vt2, rfl⟩
    subst hveq
    have hvh : vh.2 ≤ p.2 := hheadBound _ hvm vh rfl
    rcases List.mem_cons.mp hqv with hqv | hqv
    · exact hqv ▸ hvh
    · have hpw := hsorted _ hvm
      rw [List.pairwise_cons] at hpw
      exact le_trans (hpw.1 q hqv) hvh

/-- Witness for C5 on two agents with descending two-candidate ballots; the
global maximum is agent 2's top score 7 for candidate 2. -/
theorem perform_voting_best_is_global_max_witness :
    ∃ p, perform_voting [1, 2] [[(1, 5), (2, 3)], [(2, 7), (1, 1)]]
        "best" 99 (fun l => l) = (some [p], true) ∧
      p ∈ ([[(1, 5), (2, 3)], [(2, 7), (1, (1 : ℚ))]] :
        List (List (ℕ × ℚ))).flatten ∧
      ∀ q ∈ ([[(1, 5), (2, 3)], [(2, 7), (1, (1 : ℚ))]] :
        List (List (ℕ × ℚ))).flatten, q.2 ≤ p.2 :=
  perform_voting_best_is_global_max [1, 2]
    [[(1, 5), (2, 3)], [(2, 7), (1, 1)]] 99 (fun l => l)
    (by decide) (by decide) (by decide)
    (by decide)


theorem addVotes_flatten (votes : List (List (ℕ × ℚ))) :
    ∀ d, addVotes votes d =
      (votes.flatten).foldlM (fun d' v => alistApp v.1 v.2 d') d := by
  induction votes with
  | nil => intro d; rfl
  | cons vote rest ih =>
    intro d
    unfold addVotes
    rw [List.foldlM_cons, List.flatten_cons, List.foldlM_append]
    cases h : (vote.foldlM (fun d' v => alistApp v.1 v.2 d') d :
        Option (List (ℕ × List ℚ))) with
    | none => rfl
    | some d2 =>
      show addVotes rest d2 =
        (rest.flatten.foldlM (fun d' v => alistApp v.1 v.2 d') d2 :
          Option (List (ℕ × List ℚ)))
      exact ih d2

theorem alistApp_map (v1 : ℕ) (x : ℚ) :
    ∀ (cands : List ℕ) (g : ℕ → List ℚ), cands.Nodup → v1 ∈ cands →
      alistApp v1 x (cands.map (fun c => (c, g c))) =
        some (cands.map
          (fun c => (c, if c = v1 then g c ++ [x] else g c))) := by
  intro cands
  induction cands with
  | nil => intro g _ hv; cases hv
  | cons c0 cs ih =>
    intro g hnd hv
    rw [List.nodup_cons] at hnd
    rcases List.mem_cons.mp hv with hv | hv
    · rw [List.map_cons, List.map_cons, alistApp, if_pos hv.symm]
      have hmap : cs.map (fun c => (c, if c = v1 then g c ++ [x] else g c)) =
          cs.map (fun c => (c, g c)) := by
        apply List.map_congr_left
        intro a ha
        have hane : a ≠ v1 := fun h => hnd.1 (hv ▸ h ▸ ha)
        rw [if_neg hane]
      rw [hmap, if_pos (by rw [hv])]
    · have hne : c0 ≠ v1 := fun h => hnd.1 (h ▸ hv)
      rw [List.map_cons, List.map_cons, alistApp, if_neg hne,
        ih g hnd.2 hv, if_neg hne]
      rfl

theorem foldlM_alist (cands : List ℕ) (hnd : cands.Nodup) :
    ∀ (l : List (ℕ × ℚ)) (g : ℕ → List ℚ),
      (∀ v ∈ l, v.1 ∈ cands) →
      (l.foldlM (fun d' v => alistApp v.1 v.2 d')
          (cands.map (fun c => (c, g c))) : Option (List (ℕ × List ℚ))) =
        some (cands.map (fun c =>
          (c, g c ++ (l.filter (fun p => p.1 = c)).map Prod.snd))) := by
  intro l
  induction l with
  | nil =>
    intro g _
    rw [List.foldlM_nil]
    congr 1
    apply List.map_congr_left
    intro c _
    rw [List.filter_nil, List.map_nil, List.append_nil]
  | cons v vs ih =>
    intro g h
    rw [List.foldlM_cons,
      alistApp_map v.1 v.2 cands g hnd (h v (List.mem_cons_self _ _))]
    show (vs.foldlM (fun d' v => alistApp v.1 v.2 d') _ :
        Option (List (ℕ × List ℚ))) = _
    rw [ih (fun c => if c = v.1 then g c ++ [v.2] else g c)
      (fun x hx => h x (List.mem_cons_of_mem _ hx))]
    congr 1
    apply List.map_congr_left
    intro c _
    by_cases hcv : c = v.1
    · have hfil : (v :: vs).filter (fun p => p.1 = c) =
          v :: vs.filter (fun p => p.1 = c) := by
        rw [List.filter_cons, if_pos (by simp [hcv])]
      rw [hfil, if_pos hcv, List.map_cons, List.append_assoc]
      rfl
    · have hfil : (v :: vs).filter (fun p => p.1 = c) =
          vs.filter (fun p => p.1 = c) := by
        rw [List.filter_cons,
          if_neg (by
            simp only [decide_eq_true_eq]
            exact fun hh => hcv hh.symm)]
      rw [hfil, if_neg hcv]

theorem toMeans_map :
    ∀ (cands : List ℕ) (f : ℕ → List ℚ), (∀ c ∈ cands, f c ≠ []) →
      toMeans (cands.map (fun c => (c, f c))) =
        some (cands.map
          (fun c => (c, (f c).sum / ((f c).length : ℚ)))) := by
  intro cands
  induction cands with
  | nil => intro f _; rfl
  | cons c cs ih =>
    intro f h
    have hc : (f c).isEmpty = false := by
      rw [List.isEmpty_eq_false]
      exact h c (List.mem_cons_self _ _)
    rw [List.map_cons, toMeans, hc]
    show (toMeans (cs.map (fun c => (c, f c)))).map _ = _
    rw [ih f (fun x hx => h x (List.mem_cons_of_mem _ hx))]
    rfl

theorem toMeans_none :
    ∀ (cands : List ℕ) (f : ℕ → List ℚ), (∃ c ∈ cands, f c = []) →
      toMeans (cands.map (fun c => (c, f c))) = none := by
  intro cands
  induction cands with
  | nil => intro f h; obtain ⟨c, hc, _⟩ := h; cases hc
  | cons c0 cs ih =>
    intro f h
    by_cases h0 : (f c0).isEmpty
    · rw [List.map_cons, toMeans, h0]
      rfl
    · rw [List.map_cons, toMeans, Bool.eq_false_iff.mpr h0]
      obtain ⟨c, hc, hce⟩ := h
      rcases List.mem_cons.mp hc with hc | hc
      · exfalso
        rw [← hc, hce] at h0
        exact h0 rfl
      · show (toMeans (cs.map (fun c => (c, f c)))).map _ = none
        rw [ih f ⟨c, hc, hce⟩]
        rfl

theorem take_min_length {α : Type} (l : List α) (n : ℕ) :
    l.take (min n l.length) = l.take n := by
  rcases le_total n l.length with h | h
  · rw [min_eq_left h]
  · rw [min_eq_right h, List.take_length, List.take_of_length_le h]

theorem insDesc_perm {β : Type} [LinearOrder β] (p : ℕ × β) :
    ∀ l : List (ℕ × β), (insDesc p l).Perm (p :: l) := by
  intro l
  induction l with
  | nil => exact List.Perm.refl _
  | cons q qs ih =>
    rw [insDesc]
    by_cases h : p.2 ≤ q.2
    · rw [if_pos h]
      exact (List.Perm.cons q ih).trans (List.Perm.swap p q qs)
    · rw [if_neg h]

theorem isortDesc_fold_perm {β : Type} [LinearOrder β] :
    ∀ (l acc : List (ℕ × β)),
      (l.foldl (fun acc p => insDesc p acc) acc).Perm (acc ++ l) := by
  intro l
  induction l with
  | nil => intro acc; simp
  | cons p ps ih =>
    intro acc
    rw [List.foldl_cons]
    refine (ih (insDesc p acc)).trans ?_
    refine (List.Perm.append_right ps (insDesc_perm p acc)).trans ?_
    exact List.perm_middle.symm

theorem mem_isortDesc {β : Type} [LinearOrder β] {l : List (ℕ × β)}
    {e : ℕ × β} (h : e ∈ isortDesc l) : e ∈ l := by
  have hp : (isortDesc l).Perm ([] ++ l) := isortDesc_fold_perm l []
  simpa using hp.mem_iff.mp h

theorem filter_eq_singleton :
    ∀ (cands : List ℕ), cands.Nodup → ∀ k ∈ cands,
      cands.filter (fun c => c = k) = [k] := by
  intro cands
  induction cands with
  | nil => intro _ k hk; cases hk
  | cons c0 cs ih =>
    intro hnd k hk
    rw [List.nodup_cons] at hnd
    rcases List.mem_cons.mp hk with hk | hk
    · have hcs : cs.filter (fun c => c = k) = [] := by
        rw [List.filter_eq_nil_iff]
        intro a ha
        simp only [decide_eq_true_eq]
        exact fun hak => hnd.1 (hk ▸ hak ▸ ha)
      rw [List.filter_cons, if_pos (by simp [hk]), hcs, hk]
    · have hne : c0 ≠ k := fun h => hnd.1 (h ▸ hk)
      rw [List.filter_cons, if_neg (by simp [hne]), ih hnd.2 k hk]

theorem rebuild_foldl (cands : List ℕ) (hnd : cands.Nodup) :
    ∀ (best acc : List (ℕ × ℚ)), (∀ e ∈ best, e.1 ∈ cands) →
      best.foldl
        (fun acc e =>
          acc ++ (cands.filter (fun c => c = e.1)).map (fun c => (c, e.2)))
        acc = acc ++ best := by
  intro best
  induction best with
  | nil => intro acc _; simp
  | cons e es ih =>
    intro acc h
    rw [List.foldl_cons,
      filter_eq_singleton cands hnd e.1 (h e (List.mem_cons_self _ _)),
      List.map_singleton,
      ih (acc ++ [(e.1, e.2)]) (fun x hx => h x (List.mem_cons_of_mem _ hx))]
    simp


/-- C3 (amended): with every candidate scored at least once (and every vote
naming a registered candidate), `_vote_mean` computes for each candidate the
arithmetic mean of exactly the scores submitted for it, sorts descending by
mean with ties keeping first-seen order, and returns the top `accepted` —
the refinement of the spec's mean-voting description; but a candidate with
no scores makes the call fail (`ZeroDivisionError`) instead of being
excluded. -/
theorem vote_mean_refines_spec (cands : List ℕ)
    (votes : List (List (ℕ × ℚ))) (accepted : ℕ)
    (hnd : cands.Nodup)
    (hkeys : ∀ vl ∈ votes, ∀ p ∈ vl, p.1 ∈ cands) :
    ((∀ c ∈ cands, scoresFor c votes ≠ []) →
      vote_mean cands votes accepted =
        some (vote_mean_spec cands votes accepted)) ∧
    ((∃ c ∈ cands, scoresFor c votes = []) →
      vote_mean cands votes accepted = none) := by
  have hdict : dictInit cands = cands.map (fun c => (c, ([] : List ℚ))) := by
    unfold dictInit
    rw [firstOccs_of_nodup hnd]
  have hflat : ∀ v ∈ votes.flatten, v.1 ∈ cands := by
    intro v hv
    obtain ⟨vl, hvl, hmem⟩ := List.mem_flatten.mp hv
    exact hkeys vl hvl v hmem
  have hAdd : addVotes votes (dictInit cands) =
      some (cands.map (fun c => (c, scoresFor c votes))) := by
    rw [hdict, addVotes_flatten]
    rw [foldlM_alist cands hnd votes.flatten (fun _ => []) hflat]
    rfl
  constructor
  · intro hs
    have hMeans := toMeans_map cands (fun c => scoresFor c votes) hs
    have hmemb : ∀ e ∈ (isortDesc (cands.map (fun c =>
        (c, (scoresFor c votes).sum /
          ((scoresFor c votes).length : ℚ))))).take accepted,
        e.1 ∈ cands := by
      intro e he
      have h1 := List.mem_of_mem_take he
      have h2 := mem_isortDesc h1
      obtain ⟨c, hc, hec⟩ := List.mem_map.mp h2
      rw [← hec]
      exact hc
    simp only [vote_mean, hAdd, hMeans]
    rw [take_min_length,
      rebuild_foldl cands hnd _ [] hmemb, List.nil_append]
    rfl
  · intro hex
    have hMeans := toMeans_none cands (fun c => scoresFor c votes) hex
    simp only [vote_mean, hAdd, hMeans]

/-- Witness for C3's amended theorem: two candidates, one agent scoring
both; candidate 2's mean 4 beats candidate 1's mean 2. -/
theorem vote_mean_refines_spec_witness :
    vote_mean [1, 2] [[(1, 2), (2, 4)]] 1 =
      some (vote_mean_spec [1, 2] [[(1, 2), (2, 4)]] 1) :=
  (vote_mean_refines_spec [1, 2] [[(1, 2), (2, 4)]] 1
    (by decide) (by decide)).1 (by decide)

end Creamas
